import Mathlib

/-!
Shallow embedding of `dkrichards86/go-cache` (src/cache.go, src/unnamed/part_000).

The repository implements a read-through cache in four variants (simple,
concurrent-map, locked, coalescing).  All four variants share the same
sequential get/set/fetch-and-store logic; they differ only in the
synchronization wrapped around it.  We embed:

* `Item` and `Item.Expired` (cache.go lines 11-23), with `time.Time`
  modelled as `Nat` where `0` is Go's zero instant, `IsZero` is `= 0`
  and `Before` is `<`;
* the shared sequential logic `fetchAndStore` / `simpleGet` / `Set`
  (cache.go lines 39-70, identical in the other variants), with the Go
  map `entries` modelled as `String → Option Item`, the Go `interface{}`
  returned by `Adapter.Query` modelled as `QueryValue`, and runtime
  panics (failed `value.(*Item)` type assertions) made explicit;
* the caller-visible `(*Item, error)` pair of `simpleCache.Get` and of
  `coalescedCache.Get` (the latter includes the `value.(*Item)`
  assertion on singleflight's result, cache.go line 223);
* an interleaving small-step model of K goroutines running
  `coalescedCache.Get` on one key through `singleflight.Group.Do`
  (cache.go lines 209-224; the singleflight library itself is an
  external dependency, modelled from its duplicate-suppression
  contract as described for the coalescing variant).
-/

namespace GoCache

/-- Opaque Go `error` values returned by an `Adapter`. -/
abbrev Err := String

/-- Go `interface{}` values that occur as cached `Value`s. -/
inductive GoValue where
  | vStr : String → GoValue
  | vNat : Nat → GoValue
  deriving DecidableEq, Repr

/-- `Item` (cache.go lines 11-14): a value in the cache.  `Expiration`
models `time.Time` as `Nat`; `0` is Go's zero (unset) instant. -/
structure Item where
  Value : GoValue
  Expiration : Nat
  deriving DecidableEq, Repr

/-- `Item.Expired` (cache.go lines 17-23): false when the expiration is
the zero instant, otherwise `me.Expiration.Before(now)`. -/
def Item.Expired (me : Item) (now : Nat) : Bool :=
  if me.Expiration = 0 then false
  else decide (me.Expiration < now)

/-- Dynamic values an `Adapter.Query` may place in its `interface{}`
result: a `*Item`, or some other value (here a plain string), on which
the caches' `value.(*Item)` type assertion panics. -/
inductive QueryValue where
  | qItem : Item → QueryValue
  | qStr : String → QueryValue
  deriving DecidableEq, Repr

/-- `Adapter` (src/unnamed/part_000): `Query(key string) (interface{}, error)`. -/
abbrev Adapter := String → Except Err QueryValue

/-- The `entries` store, Go `map[string]interface{}` whose values are the
`*Item`s placed there by `Set`. -/
abbrev Entries := String → Option Item

/-- The state shared by every cache variant: an `Adapter` called `store`,
a fixed `ttl` and the `entries` map (cache.go lines 31-37, 78-84,
126-133, 187-195).  `ttl` models `time.Duration` as `Nat`: Go guards
`me.ttl > 0`, so all non-positive durations behave like `0`. -/
structure CacheHandle where
  store : Adapter
  ttl : Nat
  entries : Entries

/-- The result of the shared fetch/lookup logic: the `(*Item, error)`
pair when it returns (`fOk item` is `(item, nil)`, `fErr e` is
`(nil, e)`), or a runtime panic. -/
inductive FetchOutcome where
  | fOk : Item → FetchOutcome
  | fErr : Err → FetchOutcome
  | fPanic : FetchOutcome
  deriving DecidableEq, Repr

/-- The expiration stamp `Set` performs (cache.go lines 65-67): when
`ttl > 0` it mutates `item.Expiration` to `now + ttl`, otherwise it
leaves the item untouched. -/
def setItem (ttl : Nat) (item : Item) (now : Nat) : Item :=
  if ttl > 0 then { item with Expiration := now + ttl } else item

/-- The store write `Set` performs (cache.go lines 64-70): unconditional
overwrite of `entries[key]` with the (possibly stamped) item. -/
def setEntries (ttl : Nat) (entries : Entries) (key : String) (item : Item)
    (now : Nat) : Entries :=
  fun k => if k = key then some (setItem ttl item now) else entries k

/-- `fetchAndStore` (cache.go lines 39-48, identical at 86-95, 140-150,
197-207): query the adapter; on error return `(nil, err)` leaving the
store untouched; on success assert `value.(*Item)` (panicking on any
other dynamic type), `Set` it, and return the item — the same pointer
`Set` just stamped, hence with the stamped expiration.  The result also
carries the updated `entries` and the number of adapter invocations. -/
def fetchAndStore (c : CacheHandle) (key : String) (now : Nat) :
    FetchOutcome × Entries × Nat :=
  match c.store key with
  | .error e => (.fErr e, c.entries, 1)
  | .ok (.qItem item) =>
      (.fOk (setItem c.ttl item now), setEntries c.ttl c.entries key item now, 1)
  | .ok (.qStr _) => (.fPanic, c.entries, 1)

/-- The shared body of `Get` (cache.go lines 50-62, identical at 97-109,
157-167 under the lock, and 210-221 inside `singleflight.Do`): miss or
expired entry → `fetchAndStore`; fresh hit → the stored item, no error,
no adapter call, store untouched. -/
def simpleGet (c : CacheHandle) (key : String) (now : Nat) :
    FetchOutcome × Entries × Nat :=
  match c.entries key with
  | none => fetchAndStore c key now
  | some item =>
      if item.Expired now then fetchAndStore c key now
      else (.fOk item, c.entries, 0)

/-- The `(*Item, error)` pair a caller of `Get` observes, or a panic. -/
inductive GoResult where
  | ret : Option Item → Option Err → GoResult
  | panicked : GoResult
  deriving DecidableEq, Repr

/-- What `simpleCache.Get` (and the concurrent/locked variants) return
to the caller: `(item, nil)`, `(nil, err)`, or a propagated panic. -/
def simpleGetResult (c : CacheHandle) (key : String) (now : Nat) : GoResult :=
  match (simpleGet c key now).1 with
  | .fOk item => .ret (some item) none
  | .fErr e => .ret none (some e)
  | .fPanic => .panicked

/-- What `coalescedCache.Get` returns (cache.go lines 209-224): the
closure passed to `singleflight.Do` is exactly `simpleGet`, and line 223
returns `value.(*Item), err`.  On the error path the closure returns
`fetchAndStore`'s `(nil, err)`, whose nil `*Item` is boxed into a
non-nil `interface{}` of dynamic type `*Item` (Go's typed nil), so the
line-223 assertion succeeds and yields the nil pointer: the caller sees
`(nil, err)`, the same pair the simple variant returns.  Only a panic
inside the closure (the non-`*Item` assertion in `fetchAndStore`)
propagates to the `Do` caller as a panic. -/
def coalescedGetResult (c : CacheHandle) (key : String) (now : Nat) : GoResult :=
  match (simpleGet c key now).1 with
  | .fOk item => .ret (some item) none
  | .fErr e => .ret none (some e)
  | .fPanic => .panicked

/-- Stamping never changes the stored value, only the expiration. -/
theorem setItem_Value (ttl : Nat) (item : Item) (now : Nat) :
    (setItem ttl item now).Value = item.Value := by
  unfold setItem
  split <;> rfl

/-- Restamping an already stamped item at a later instant is the same as
stamping the original item at that instant. -/
theorem setItem_setItem (ttl : Nat) (item : Item) (t1 t2 : Nat) :
    setItem ttl (setItem ttl item t1) t2 = setItem ttl item t2 := by
  unfold setItem
  by_cases h : ttl > 0 <;> simp [h]

/-- C2: for every item and every time `now`, `Expired` returns false when
the item's expiration is unset (the zero instant), and otherwise returns
true iff `now` is strictly after the stored expiration; in particular at
`now` equal to the expiration instant the item is not expired. -/
theorem expired_spec (it : Item) (now : Nat) :
    (it.Expiration = 0 → it.Expired now = false) ∧
    (it.Expiration ≠ 0 → (it.Expired now = true ↔ now > it.Expiration)) ∧
    it.Expired it.Expiration = false := by
  refine ⟨fun h => by simp [Item.Expired, h], fun h => ?_, ?_⟩
  · simp [Item.Expired, h, Nat.lt_iff_add_one_le, gt_iff_lt]
  · unfold Item.Expired
    split <;> simp

theorem expired_spec_witness :
    (Item.mk (GoValue.vStr "v") 3).Expired 5 = true ↔ 5 > 3 :=
  (expired_spec ⟨GoValue.vStr "v", 3⟩ 5).2.1 (by decide)

/-- C3: when the Source's query for a key returns an error, `Get`
leaves the whole store mapping exactly as it was (in every cache
state), and whenever the Source is actually consulted — the key is
absent or its entry expired — the error is returned to the caller
verbatim, unwrapped and unretried, by the simple and the coalescing
variant alike. -/
theorem get_error_propagates (c : CacheHandle) (key : String) (now : Nat) (e : Err)
    (hs : c.store key = .error e) :
    (simpleGet c key now).2.1 = c.entries ∧
    ((c.entries key = none ∨
        ∃ item, c.entries key = some item ∧ item.Expired now = true) →
      simpleGetResult c key now = .ret none (some e) ∧
      coalescedGetResult c key now = .ret none (some e)) := by
  constructor
  · unfold simpleGet
    cases hE : c.entries key with
    | none => simp [fetchAndStore, hs]
    | some item =>
        cases he : item.Expired now with
        | true => simp [he, fetchAndStore, hs]
        | false => simp [he]
  · rintro (hE | ⟨item, hE, he⟩)
    · constructor <;>
        simp [simpleGetResult, coalescedGetResult, simpleGet, hE, fetchAndStore, hs]
    · constructor <;>
        simp [simpleGetResult, coalescedGetResult, simpleGet, hE, he, fetchAndStore, hs]

theorem get_error_propagates_witness :
    simpleGetResult ⟨fun _ => Except.error "boom", 1, fun _ => none⟩ "k" 0
        = .ret none (some "boom") ∧
    coalescedGetResult ⟨fun _ => Except.error "boom", 1, fun _ => none⟩ "k" 0
        = .ret none (some "boom") :=
  (get_error_propagates ⟨fun _ => Except.error "boom", 1, fun _ => none⟩ "k" 0 "boom"
      rfl).2 (Or.inl rfl)

/-- C4: on a key whose Source query fails (and is consulted: miss or
expired entry), `Get` returns the zero `*Item` — the entry component
carries no value — alongside the error, in the simple and in the
coalescing variant: the typed-nil `*Item` passes the `value.(*Item)`
assertion at cache.go line 223. -/
theorem failed_get_zero_entry (c : CacheHandle) (key : String) (now : Nat) (e : Err)
    (hs : c.store key = .error e)
    (hcold : c.entries key = none ∨
      ∃ item, c.entries key = some item ∧ item.Expired now = true) :
    simpleGetResult c key now = .ret none (some e) ∧
    coalescedGetResult c key now = .ret none (some e) := by
  rcases hcold with hE | ⟨item, hE, he⟩
  · constructor <;>
      simp [simpleGetResult, coalescedGetResult, simpleGet, hE, fetchAndStore, hs]
  · constructor <;>
      simp [simpleGetResult, coalescedGetResult, simpleGet, hE, he, fetchAndStore, hs]

theorem failed_get_zero_entry_witness :
    simpleGetResult ⟨fun _ => Except.error "fail", 0,
        fun k => if k = "key" then some ⟨GoValue.vNat 7, 2⟩ else none⟩ "key" 5
      = .ret none (some "fail") ∧
    coalescedGetResult ⟨fun _ => Except.error "fail", 0,
        fun k => if k = "key" then some ⟨GoValue.vNat 7, 2⟩ else none⟩ "key" 5
      = .ret none (some "fail") :=
  failed_get_zero_entry ⟨fun _ => Except.error "fail", 0,
      fun k => if k = "key" then some ⟨GoValue.vNat 7, 2⟩ else none⟩ "key" 5 "fail" rfl
    (Or.inr ⟨⟨GoValue.vNat 7, 2⟩, by simp, by decide⟩)

/-- C5: with a positive ttl, `Set` stores under `key` an item whose value
is the caller's value unchanged and whose expiration is stamped to
`now + ttl`, overwriting whatever expiration the caller supplied; all
other keys are untouched. -/
theorem set_stamps_ttl (c : CacheHandle) (key : String) (item : Item) (now : Nat)
    (h : c.ttl > 0) :
    (∃ stored, setEntries c.ttl c.entries key item now key = some stored ∧
        stored.Value = item.Value ∧ stored.Expiration = now + c.ttl) ∧
    (∀ k, k ≠ key → setEntries c.ttl c.entries key item now k = c.entries k) := by
  refine ⟨⟨setItem c.ttl item now, ?_, setItem_Value _ _ _, ?_⟩, fun k hk => ?_⟩
  · simp [setEntries]
  · simp [setItem, h]
  · simp [setEntries, hk]

theorem set_stamps_ttl_witness :
    ∃ stored,
      setEntries 2 (fun _ => none) "k" ⟨GoValue.vStr "v", 9⟩ 10 "k" = some stored ∧
        stored.Value = GoValue.vStr "v" ∧ stored.Expiration = 10 + 2 :=
  (set_stamps_ttl ⟨fun _ => Except.error "e", 2, fun _ => none⟩ "k"
      ⟨GoValue.vStr "v", 9⟩ 10 (by decide)).1

/-- C6 counterexample: with ttl = 0 and a Source item that carries the
concrete expiration instant 5, the entry stored by fetch-and-store has
expiration 5 — not the unset instant, contradicting the claim that it is
always unset. -/
theorem ttlzero_expiration_cex :
    ∃ stored,
      (fetchAndStore ⟨fun _ => Except.ok (QueryValue.qItem ⟨GoValue.vStr "v", 5⟩),
            0, fun _ => none⟩ "k" 10).2.1 "k" = some stored ∧
        stored.Expiration ≠ 0 :=
  ⟨⟨GoValue.vStr "v", 5⟩, by decide, by decide⟩

/-- C6 amended: with ttl = 0, a successful fetch-and-store stores and
returns the Source's item exactly as supplied — its expiration is left
untouched, so it is unset (never expires) iff the Source left it unset. -/
theorem ttlzero_stores_source_item (c : CacheHandle) (key : String) (now : Nat)
    (item : Item) (h0 : c.ttl = 0) (hs : c.store key = .ok (.qItem item)) :
    (fetchAndStore c key now).2.1 key = some item ∧
    (fetchAndStore c key now).1 = .fOk item := by
  simp [fetchAndStore, hs, setEntries, setItem, h0]

theorem ttlzero_stores_source_item_witness :
    (fetchAndStore ⟨fun _ => Except.ok (QueryValue.qItem ⟨GoValue.vStr "w", 0⟩),
          0, fun _ => none⟩ "k" 7).2.1 "k" = some ⟨GoValue.vStr "w", 0⟩ :=
  (ttlzero_stores_source_item ⟨fun _ => Except.ok (QueryValue.qItem ⟨GoValue.vStr "w", 0⟩),
      0, fun _ => none⟩ "k" 7 ⟨GoValue.vStr "w", 0⟩ rfl rfl).1

/-- C7: when the Source succeeds on `key` with an item, and any stored
fresh entry for `key` came from the Source (its value agrees with the
Source's), `Get` returns without error an item whose value equals the
Source's value — both on a hit and on a fresh fetch. -/
theorem get_value_from_source (c : CacheHandle) (key : String) (now : Nat) (item : Item)
    (hs : c.store key = .ok (.qItem item))
    (hstore : ∀ e, c.entries key = some e → e.Expired now = false → e.Value = item.Value) :
    ∃ r, simpleGetResult c key now = .ret (some r) none ∧ r.Value = item.Value := by
  unfold simpleGetResult simpleGet
  cases hE : c.entries key with
  | none =>
      exact ⟨setItem c.ttl item now, by simp [fetchAndStore, hs], setItem_Value _ _ _⟩
  | some e =>
      cases he : e.Expired now with
      | true =>
          exact ⟨setItem c.ttl item now, by simp [he, fetchAndStore, hs],
            setItem_Value _ _ _⟩
      | false =>
          exact ⟨e, by simp [he], hstore e hE he⟩

theorem get_value_from_source_witness :
    ∃ r, simpleGetResult ⟨fun _ => Except.ok (QueryValue.qItem ⟨GoValue.vStr "hey oh", 0⟩),
          1, fun _ => none⟩ "key" 0 = .ret (some r) none ∧
      r.Value = GoValue.vStr "hey oh" :=
  get_value_from_source ⟨fun _ => Except.ok (QueryValue.qItem ⟨GoValue.vStr "hey oh", 0⟩),
      1, fun _ => none⟩ "key" 0 ⟨GoValue.vStr "hey oh", 0⟩ rfl
    (fun e he => by simp at he)

/-- C8: on a hit whose entry is fresh at call time, `Get` returns the
stored item with no error, performs zero Source invocations and leaves
the whole store mapping unchanged. -/
theorem get_hit_fresh (c : CacheHandle) (key : String) (now : Nat) (item : Item)
    (hE : c.entries key = some item) (hF : item.Expired now = false) :
    simpleGet c key now = (.fOk item, c.entries, 0) ∧
    simpleGetResult c key now = .ret (some item) none := by
  constructor
  · simp [simpleGet, hE, hF]
  · simp [simpleGetResult, simpleGet, hE, hF]

theorem get_hit_fresh_witness :
    simpleGet ⟨fun _ => Except.error "down", 1,
        fun k => if k = "key" then some ⟨GoValue.vStr "hey oh", 9⟩ else none⟩ "key" 4
      = (.fOk ⟨GoValue.vStr "hey oh", 9⟩,
          fun k => if k = "key" then some ⟨GoValue.vStr "hey oh", 9⟩ else none, 0) :=
  (get_hit_fresh ⟨fun _ => Except.error "down", 1,
      fun k => if k = "key" then some ⟨GoValue.vStr "hey oh", 9⟩ else none⟩
      "key" 4 ⟨GoValue.vStr "hey oh", 9⟩ (by simp) (by decide)).1

/-- C9: calling `Set` twice in succession with the same item (whose
expiration the first call mutated in place, as the Go code does through
the shared pointer) leaves the store exactly as a single `Set` at the
second call's time — the only difference a single call could see is the
refreshed `now + ttl` stamp. -/
theorem set_idempotent (ttl : Nat) (entries : Entries) (key : String) (item : Item)
    (t1 t2 : Nat) :
    setEntries ttl (setEntries ttl entries key item t1) key (setItem ttl item t1) t2
      = setEntries ttl entries key item t2 := by
  funext k
  unfold setEntries
  by_cases h : k = key
  · simp [h, setItem_setItem]
  · simp [h]

/-- C10: when the Source returns, with nil error, a value that is not a
`*Item` (here a plain string), `Get` on a miss or on an expired entry
panics at the fetch-and-store type assertion instead of returning an
error — in the simple and in the coalescing variant alike. -/
theorem get_nonitem_panics (c : CacheHandle) (key : String) (now : Nat) (s : String)
    (hs : c.store key = .ok (.qStr s))
    (hcold : c.entries key = none ∨
      ∃ item, c.entries key = some item ∧ item.Expired now = true) :
    simpleGetResult c key now = .panicked ∧
    coalescedGetResult c key now = .panicked := by
  have hp : (simpleGet c key now).1 = .fPanic := by
    rcases hcold with h | ⟨item, hE, hexp⟩
    · simp [simpleGet, h, fetchAndStore, hs]
    · simp [simpleGet, hE, hexp, fetchAndStore, hs]
  exact ⟨by simp [simpleGetResult, hp], by simp [coalescedGetResult, hp]⟩

theorem get_nonitem_panics_witness :
    simpleGetResult ⟨fun _ => Except.ok (QueryValue.qStr "oops"), 1, fun _ => none⟩
        "k" 2 = .panicked ∧
    coalescedGetResult ⟨fun _ => Except.ok (QueryValue.qStr "oops"), 1, fun _ => none⟩
        "k" 2 = .panicked :=
  get_nonitem_panics ⟨fun _ => Except.ok (QueryValue.qStr "oops"), 1, fun _ => none⟩
    "k" 2 "oops" rfl (Or.inl rfl)

/-!
### Interleaving model of `coalescedCache.Get` through `singleflight.Do`

K goroutines each run `coalescedCache.Get` (cache.go lines 209-224) for
one shared key against a cold store.  `singleflight.Group.Do` is an
external dependency; its duplicate-suppression contract (the first
caller for a key executes the closure, duplicate callers wait and
receive the identical results; the key is forgotten once the execution
completes) is modelled by the `flight` registration below.  The closure
body is the shared `simpleGet` logic, broken into its atomic actions:
register / look up the store / query the Source (begin and end kept as
separate steps so that "at most one invocation active at an instant" is
a real statement) / `Set` / publish to all current waiters.  `now` is
held fixed: the K calls race within one instant.
-/

instance : DecidableEq (Except Err Item) := fun x y =>
  match x, y with
  | .ok a, .ok b =>
      if h : a = b then .isTrue (by rw [h]) else .isFalse (by simp [h])
  | .error a, .error b =>
      if h : a = b then .isTrue (by rw [h]) else .isFalse (by simp [h])
  | .ok _, .error _ => .isFalse (by simp)
  | .error _, .ok _ => .isFalse (by simp)

/-- Program counter of one goroutine inside `coalescedCache.Get`. -/
inductive PC where
  | start
  | waiting
  | checkCache
  | querying
  | setStore : Item → PC
  | publish : Except Err Item → PC
  | done : Except Err Item → PC
  deriving DecidableEq, Repr

/-- Global configuration: per-goroutine program counters, the `entries`
value for the shared key, singleflight's in-flight registration for the
key, and the number of Source invocations begun so far. -/
structure Config (K : Nat) where
  pcs : Fin K → PC
  entry : Option Item
  flight : Option (Fin K)
  calls : Nat

/-- One atomic step of the K-goroutine system.  `src` is the Source's
(fixed) reply for the shared key. -/
inductive SfStep (ttl now : Nat) (src : Except Err Item) {K : Nat} :
    Config K → Config K → Prop where
  | lead (c : Config K) (t : Fin K) :
      c.pcs t = .start → c.flight = none →
      SfStep ttl now src c
        { c with pcs := Function.update c.pcs t .checkCache, flight := some t }
  | follow (c : Config K) (t l : Fin K) :
      c.pcs t = .start → c.flight = some l →
      SfStep ttl now src c { c with pcs := Function.update c.pcs t .waiting }
  | hitFresh (c : Config K) (t : Fin K) (it : Item) :
      c.pcs t = .checkCache → c.entry = some it → it.Expired now = false →
      SfStep ttl now src c
        { c with pcs := Function.update c.pcs t (.publish (.ok it)) }
  | beginQueryMiss (c : Config K) (t : Fin K) :
      c.pcs t = .checkCache → c.entry = none →
      SfStep ttl now src c
        { c with pcs := Function.update c.pcs t .querying, calls := c.calls + 1 }
  | beginQueryExpired (c : Config K) (t : Fin K) (it : Item) :
      c.pcs t = .checkCache → c.entry = some it → it.Expired now = true →
      SfStep ttl now src c
        { c with pcs := Function.update c.pcs t .querying, calls := c.calls + 1 }
  | endQueryOk (c : Config K) (t : Fin K) (it : Item) :
      c.pcs t = .querying → src = .ok it →
      SfStep ttl now src c { c with pcs := Function.update c.pcs t (.setStore it) }
  | endQueryErr (c : Config K) (t : Fin K) (e : Err) :
      c.pcs t = .querying → src = .error e →
      SfStep ttl now src c
        { c with pcs := Function.update c.pcs t (.publish (.error e)) }
  | doSet (c : Config K) (t : Fin K) (it : Item) :
      c.pcs t = .setStore it →
      SfStep ttl now src c
        { c with
          pcs := Function.update c.pcs t (.publish (.ok (setItem ttl it now))),
          entry := some (setItem ttl it now) }
  | doPublish (c : Config K) (t : Fin K) (r : Except Err Item) :
      c.pcs t = .publish r →
      SfStep ttl now src c
        { c with
          pcs := fun u => if u = t then .done r
            else if c.pcs u = .waiting then .done r else c.pcs u,
          flight := none }

/-- All K goroutines about to call `Get`; the key is cold. -/
def initConfig (K : Nat) : Config K :=
  { pcs := fun _ => .start, entry := none, flight := none, calls := 0 }

/-- Configurations reachable by interleaving the K calls from the cold
initial configuration. -/
def SfReachable (ttl now : Nat) (src : Except Err Item) {K : Nat}
    (c : Config K) : Prop :=
  Relation.ReflTransGen (SfStep ttl now src) (initConfig K) c

/-- Program counters owned by the unique in-flight leader. -/
def MidFlight : PC → Prop
  | .checkCache => True
  | .querying => True
  | .setStore _ => True
  | .publish _ => True
  | _ => False

/-- Whether the single Source invocation has begun (and its effect, the
stored entry, persists). -/
def SfActive {K : Nat} (c : Config K) : Prop :=
  c.entry ≠ none ∨ ∃ t : Fin K, c.pcs t = .querying ∨ ∃ it, c.pcs t = .setStore it

/-- Inductive invariant of the coalescing run with a succeeding Source
(`src = .ok it0`): the registered leader is the only goroutine mid
flight, the store only ever holds the stamped Source item, every
published or delivered result is that item, and the Source invocation
counter is 1 exactly from the first invocation on. -/
structure SfInv (ttl now : Nat) (it0 : Item) {K : Nat} (c : Config K) : Prop where
  leaderOnly : ∀ t : Fin K, MidFlight (c.pcs t) → c.flight = some t
  waitSome : ∀ t : Fin K, c.pcs t = .waiting → c.flight ≠ none
  entryVal : ∀ e, c.entry = some e → e = setItem ttl it0 now
  setVal : ∀ (t : Fin K) (it : Item), c.pcs t = .setStore it → it = it0
  pubVal : ∀ (t : Fin K) (r : Except Err Item), c.pcs t = .publish r →
    r = .ok (setItem ttl it0 now) ∧ c.entry = some (setItem ttl it0 now)
  doneVal : ∀ (t : Fin K) (r : Except Err Item), c.pcs t = .done r →
    r = .ok (setItem ttl it0 now) ∧ c.entry = some (setItem ttl it0 now)
  callsOne : SfActive c → c.calls = 1
  callsZero : ¬ SfActive c → c.calls = 0

/-- The invariant holds in the initial configuration. -/
theorem sfInv_init (ttl now : Nat) (it0 : Item) (K : Nat) :
    SfInv ttl now it0 (initConfig K) := by
  refine ⟨?_, ?_, ?_, ?_, ?_, ?_, ?_, ?_⟩ <;>
    simp [initConfig, MidFlight, SfActive]

/-- Case analysis for a program counter read through an update. -/
theorem update_pc_cases {K : Nat} {f : Fin K → PC} {t u : Fin K} {p q : PC}
    (h : Function.update f t p u = q) :
    (u = t ∧ p = q) ∨ (u ≠ t ∧ f u = q) := by
  by_cases hut : u = t
  · subst hut
    rw [Function.update_same] at h
    exact Or.inl ⟨rfl, h⟩
  · rw [Function.update_noteq hut] at h
    exact Or.inr ⟨hut, h⟩

/-- Case analysis for `MidFlight` of a program counter read through an
update. -/
theorem update_midflight_cases {K : Nat} {f : Fin K → PC} {t u : Fin K} {p : PC}
    (h : MidFlight (Function.update f t p u)) :
    (u = t ∧ MidFlight p) ∨ (u ≠ t ∧ MidFlight (f u)) := by
  by_cases hut : u = t
  · subst hut
    rw [Function.update_same] at h
    exact Or.inl ⟨rfl, h⟩
  · rw [Function.update_noteq hut] at h
    exact Or.inr ⟨hut, h⟩

/-- One interleaving step preserves the invariant, given that the Source
succeeds with `it0` and the stamped item is fresh at `now`. -/
theorem sfInv_step {K ttl now : Nat} {it0 : Item}
    (hfresh : (setItem ttl it0 now).Expired now = false)
    {c c' : Config K} (hinv : SfInv ttl now it0 c)
    (hstep : SfStep ttl now (Except.ok it0) c c') :
    SfInv ttl now it0 c' := by
  cases hstep with
  | lead t ht hf =>
      refine ⟨?_, ?_, hinv.entryVal, ?_, ?_, ?_, ?_, ?_⟩
      · intro u hm
        replace hm : MidFlight (Function.update c.pcs t PC.checkCache u) := hm
        show some t = some u
        rcases update_midflight_cases hm with ⟨rfl, _⟩ | ⟨hut, hm⟩
        · rfl
        · have h2 := hinv.leaderOnly u hm
          rw [hf] at h2
          exact Option.noConfusion h2
      · intro u _
        show some t ≠ none
        simp
      · intro u it hu
        replace hu : Function.update c.pcs t PC.checkCache u = PC.setStore it := hu
        rcases update_pc_cases hu with ⟨rfl, hp⟩ | ⟨hut, hu⟩
        · exact PC.noConfusion hp
        · exact hinv.setVal u it hu
      · intro u r hu
        replace hu : Function.update c.pcs t PC.checkCache u = PC.publish r := hu
        rcases update_pc_cases hu with ⟨rfl, hp⟩ | ⟨hut, hu⟩
        · exact PC.noConfusion hp
        · exact hinv.pubVal u r hu
      · intro u r hu
        replace hu : Function.update c.pcs t PC.checkCache u = PC.done r := hu
        rcases update_pc_cases hu with ⟨rfl, hp⟩ | ⟨hut, hu⟩
        · exact PC.noConfusion hp
        · exact hinv.doneVal u r hu
      · intro ha
        show c.calls = 1
        apply hinv.callsOne
        rcases ha with he | ⟨u, hu⟩
        · exact Or.inl he
        · refine Or.inr ⟨u, ?_⟩
          rcases hu with hu | ⟨it, hu⟩
          · replace hu : Function.update c.pcs t PC.checkCache u = PC.querying := hu
            rcases update_pc_cases hu with ⟨rfl, hp⟩ | ⟨hut, hu⟩
            · exact PC.noConfusion hp
            · exact Or.inl hu
          · replace hu : Function.update c.pcs t PC.checkCache u = PC.setStore it := hu
            rcases update_pc_cases hu with ⟨rfl, hp⟩ | ⟨hut, hu⟩
            · exact PC.noConfusion hp
            · exact Or.inr ⟨it, hu⟩
      · intro hna
        show c.calls = 0
        apply hinv.callsZero
        intro ha
        apply hna
        rcases ha with he | ⟨u, hu⟩
        · exact Or.inl he
        · refine Or.inr ⟨u, ?_⟩
          have hut : u ≠ t := by
            intro h
            rw [h, ht] at hu
            rcases hu with hq | ⟨it, hq⟩ <;> exact PC.noConfusion hq
          show Function.update c.pcs t PC.checkCache u = PC.querying ∨
            ∃ it, Function.update c.pcs t PC.checkCache u = PC.setStore it
          rw [Function.update_noteq hut]
          exact hu
  | follow t l ht hf =>
      refine ⟨?_, ?_, hinv.entryVal, ?_, ?_, ?_, ?_, ?_⟩
      · intro u hm
        replace hm : MidFlight (Function.update c.pcs t PC.waiting u) := hm
        show c.flight = some u
        rcases update_midflight_cases hm with ⟨rfl, hp⟩ | ⟨hut, hm⟩
        · exact absurd hp (by simp [MidFlight])
        · exact hinv.leaderOnly u hm
      · intro u _
        show c.flight ≠ none
        rw [hf]
        simp
      · intro u it hu
        replace hu : Function.update c.pcs t PC.waiting u = PC.setStore it := hu
        rcases update_pc_cases hu with ⟨rfl, hp⟩ | ⟨hut, hu⟩
        · exact PC.noConfusion hp
        · exact hinv.setVal u it hu
      · intro u r hu
        replace hu : Function.update c.pcs t PC.waiting u = PC.publish r := hu
        rcases update_pc_cases hu with ⟨rfl, hp⟩ | ⟨hut, hu⟩
        · exact PC.noConfusion hp
        · exact hinv.pubVal u r hu
      · intro u r hu
        replace hu : Function.update c.pcs t PC.waiting u = PC.done r := hu
        rcases update_pc_cases hu with ⟨rfl, hp⟩ | ⟨hut, hu⟩
        · exact PC.noConfusion hp
        · exact hinv.doneVal u r hu
      · intro ha
        show c.calls = 1
        apply hinv.callsOne
        rcases ha with he | ⟨u, hu⟩
        · exact Or.inl he
        · refine Or.inr ⟨u, ?_⟩
          rcases hu with hu | ⟨it, hu⟩
          · replace hu : Function.update c.pcs t PC.waiting u = PC.querying := hu
            rcases update_pc_cases hu with ⟨rfl, hp⟩ | ⟨hut, hu⟩
            · exact PC.noConfusion hp
            · exact Or.inl hu
          · replace hu : Function.update c.pcs t PC.waiting u = PC.setStore it := hu
            rcases update_pc_cases hu with ⟨rfl, hp⟩ | ⟨hut, hu⟩
            · exact PC.noConfusion hp
            · exact Or.inr ⟨it, hu⟩
      · intro hna
        show c.calls = 0
        apply hinv.callsZero
        intro ha
        apply hna
        rcases ha with he | ⟨u, hu⟩
        · exact Or.inl he
        · refine Or.inr ⟨u, ?_⟩
          have hut : u ≠ t := by
            intro h
            rw [h, ht] at hu
            rcases hu with hq | ⟨it, hq⟩ <;> exact PC.noConfusion hq
          show Function.update c.pcs t PC.waiting u = PC.querying ∨
            ∃ it, Function.update c.pcs t PC.waiting u = PC.setStore it
          rw [Function.update_noteq hut]
          exact hu
  | hitFresh t it ht he hx =>
      have hstamp : it = setItem ttl it0 now := hinv.entryVal it he
      refine ⟨?_, ?_, hinv.entryVal, ?_, ?_, ?_, ?_, ?_⟩
      · intro u hm
        replace hm : MidFlight (Function.update c.pcs t (PC.publish (.ok it)) u) := hm
        show c.flight = some u
        rcases update_midflight_cases hm with ⟨rfl, _⟩ | ⟨hut, hm⟩
        · exact hinv.leaderOnly u (by rw [ht]; trivial)
        · exact hinv.leaderOnly u hm
      · intro u hw
        replace hw : Function.update c.pcs t (PC.publish (.ok it)) u = PC.waiting := hw
        show c.flight ≠ none
        rcases update_pc_cases hw with ⟨rfl, hp⟩ | ⟨hut, hw⟩
        · exact PC.noConfusion hp
        · exact hinv.waitSome u hw
      · intro u it' hu
        replace hu : Function.update c.pcs t (PC.publish (.ok it)) u = PC.setStore it' := hu
        rcases update_pc_cases hu with ⟨rfl, hp⟩ | ⟨hut, hu⟩
        · exact PC.noConfusion hp
        · exact hinv.setVal u it' hu
      · intro u r hu
        replace hu : Function.update c.pcs t (PC.publish (.ok it)) u = PC.publish r := hu
        show r = Except.ok (setItem ttl it0 now) ∧ c.entry = some (setItem ttl it0 now)
        rcases update_pc_cases hu with ⟨rfl, hp⟩ | ⟨hut, hu⟩
        · injection hp with h
          refine ⟨by rw [← h, hstamp], ?_⟩
          rw [he, hstamp]
        · exact hinv.pubVal u r hu
      · intro u r hu
        replace hu : Function.update c.pcs t (PC.publish (.ok it)) u = PC.done r := hu
        show r = Except.ok (setItem ttl it0 now) ∧ c.entry = some (setItem ttl it0 now)
        rcases update_pc_cases hu with ⟨rfl, hp⟩ | ⟨hut, hu⟩
        · exact PC.noConfusion hp
        · exact hinv.doneVal u r hu
      · intro _
        show c.calls = 1
        exact hinv.callsOne (Or.inl (by rw [he]; simp))
      · intro hna
        exact absurd (Or.inl (show c.entry ≠ none by rw [he]; simp)) hna
  | beginQueryMiss t ht he =>
      refine ⟨?_, ?_, hinv.entryVal, ?_, ?_, ?_, ?_, ?_⟩
      · intro u hm
        replace hm : MidFlight (Function.update c.pcs t PC.querying u) := hm
        show c.flight = some u
        rcases update_midflight_cases hm with ⟨rfl, _⟩ | ⟨hut, hm⟩
        · exact hinv.leaderOnly u (by rw [ht]; trivial)
        · exact hinv.leaderOnly u hm
      · intro u hw
        replace hw : Function.update c.pcs t PC.querying u = PC.waiting := hw
        show c.flight ≠ none
        rcases update_pc_cases hw with ⟨rfl, hp⟩ | ⟨hut, hw⟩
        · exact PC.noConfusion hp
        · exact hinv.waitSome u hw
      · intro u it' hu
        replace hu : Function.update c.pcs t PC.querying u = PC.setStore it' := hu
        rcases update_pc_cases hu with ⟨rfl, hp⟩ | ⟨hut, hu⟩
        · exact PC.noConfusion hp
        · exact hinv.setVal u it' hu
      · intro u r hu
        replace hu : Function.update c.pcs t PC.querying u = PC.publish r := hu
        show r = Except.ok (setItem ttl it0 now) ∧ c.entry = some (setItem ttl it0 now)
        rcases update_pc_cases hu with ⟨rfl, hp⟩ | ⟨hut, hu⟩
        · exact PC.noConfusion hp
        · exact hinv.pubVal u r hu
      · intro u r hu
        replace hu : Function.update c.pcs t PC.querying u = PC.done r := hu
        show r = Except.ok (setItem ttl it0 now) ∧ c.entry = some (setItem ttl it0 now)
        rcases update_pc_cases hu with ⟨rfl, hp⟩ | ⟨hut, hu⟩
        · exact PC.noConfusion hp
        · exact hinv.doneVal u r hu
      · intro _
        show c.calls + 1 = 1
        have hz : c.calls = 0 := by
          apply hinv.callsZero
          intro ha
          rcases ha with hne | ⟨u, hu⟩
          · exact hne he
          · have hmu : MidFlight (c.pcs u) := by
              rcases hu with h | ⟨it, h⟩ <;> simp [h, MidFlight]
            have h1 := hinv.leaderOnly u hmu
            have h2 := hinv.leaderOnly t (by rw [ht]; trivial)
            rw [h1] at h2
            injection h2 with h3
            rw [h3, ht] at hu
            rcases hu with hq | ⟨it, hq⟩ <;> exact PC.noConfusion hq
        rw [hz]
      · intro hna
        refine absurd (Or.inr ⟨t, Or.inl ?_⟩) hna
        show Function.update c.pcs t PC.querying t = PC.querying
        rw [Function.update_same]
  | beginQueryExpired t it ht he hx =>
      have hstamp : it = setItem ttl it0 now := hinv.entryVal it he
      rw [hstamp, hfresh] at hx
      exact Bool.noConfusion hx
  | endQueryOk t it ht hsrc =>
      have hit : it = it0 := by
        injection hsrc with h
        exact h.symm
      refine ⟨?_, ?_, hinv.entryVal, ?_, ?_, ?_, ?_, ?_⟩
      · intro u hm
        replace hm : MidFlight (Function.update c.pcs t (PC.setStore it) u) := hm
        show c.flight = some u
        rcases update_midflight_cases hm with ⟨rfl, _⟩ | ⟨hut, hm⟩
        · exact hinv.leaderOnly u (by rw [ht]; trivial)
        · exact hinv.leaderOnly u hm
      · intro u hw
        replace hw : Function.update c.pcs t (PC.setStore it) u = PC.waiting := hw
        show c.flight ≠ none
        rcases update_pc_cases hw with ⟨rfl, hp⟩ | ⟨hut, hw⟩
        · exact PC.noConfusion hp
        · exact hinv.waitSome u hw
      · intro u it' hu
        replace hu : Function.update c.pcs t (PC.setStore it) u = PC.setStore it' := hu
        rcases update_pc_cases hu with ⟨rfl, hp⟩ | ⟨hut, hu⟩
        · injection hp with h
          rw [← h, hit]
        · exact hinv.setVal u it' hu
      · intro u r hu
        replace hu : Function.update c.pcs t (PC.setStore it) u = PC.publish r := hu
        show r = Except.ok (setItem ttl it0 now) ∧ c.entry = some (setItem ttl it0 now)
        rcases update_pc_cases hu with ⟨rfl, hp⟩ | ⟨hut, hu⟩
        · exact PC.noConfusion hp
        · exact hinv.pubVal u r hu
      · intro u r hu
        replace hu : Function.update c.pcs t (PC.setStore it) u = PC.done r := hu
        show r = Except.ok (setItem ttl it0 now) ∧ c.entry = some (setItem ttl it0 now)
        rcases update_pc_cases hu with ⟨rfl, hp⟩ | ⟨hut, hu⟩
        · exact PC.noConfusion hp
        · exact hinv.doneVal u r hu
      · intro _
        show c.calls = 1
        exact hinv.callsOne (Or.inr ⟨t, Or.inl ht⟩)
      · intro hna
        refine absurd (Or.inr ⟨t, Or.inr ⟨it, ?_⟩⟩) hna
        show Function.update c.pcs t (PC.setStore it) t = PC.setStore it
        rw [Function.update_same]
  | endQueryErr t e ht hsrc =>
      exact Except.noConfusion hsrc
  | doSet t it ht =>
      have hit : it = it0 := hinv.setVal t it ht
      subst hit
      refine ⟨?_, ?_, ?_, ?_, ?_, ?_, ?_, ?_⟩
      · intro u hm
        replace hm : MidFlight
          (Function.update c.pcs t (PC.publish (.ok (setItem ttl it now))) u) := hm
        show c.flight = some u
        rcases update_midflight_cases hm with ⟨rfl, _⟩ | ⟨hut, hm⟩
        · exact hinv.leaderOnly u (by rw [ht]; trivial)
        · exact hinv.leaderOnly u hm
      · intro u hw
        replace hw : Function.update c.pcs t
          (PC.publish (.ok (setItem ttl it now))) u = PC.waiting := hw
        show c.flight ≠ none
        rcases update_pc_cases hw with ⟨rfl, hp⟩ | ⟨hut, hw⟩
        · exact PC.noConfusion hp
        · exact hinv.waitSome u hw
      · intro e hee
        replace hee : some (setItem ttl it now) = some e := hee
        injection hee with h
        exact h.symm
      · intro u it' hu
        replace hu : Function.update c.pcs t
          (PC.publish (.ok (setItem ttl it now))) u = PC.setStore it' := hu
        rcases update_pc_cases hu with ⟨rfl, hp⟩ | ⟨hut, hu⟩
        · exact PC.noConfusion hp
        · exact hinv.setVal u it' hu
      · intro u r hu
        replace hu : Function.update c.pcs t
          (PC.publish (.ok (setItem ttl it now))) u = PC.publish r := hu
        show r = Except.ok (setItem ttl it now) ∧
          some (setItem ttl it now) = some (setItem ttl it now)
        rcases update_pc_cases hu with ⟨rfl, hp⟩ | ⟨hut, hu⟩
        · injection hp with h
          exact ⟨h.symm, rfl⟩
        · exact ⟨(hinv.pubVal u r hu).1, rfl⟩
      · intro u r hu
        replace hu : Function.update c.pcs t
          (PC.publish (.ok (setItem ttl it now))) u = PC.done r := hu
        show r = Except.ok (setItem ttl it now) ∧
          some (setItem ttl it now) = some (setItem ttl it now)
        rcases update_pc_cases hu with ⟨rfl, hp⟩ | ⟨hut, hu⟩
        · exact PC.noConfusion hp
        · exact ⟨(hinv.doneVal u r hu).1, rfl⟩
      · intro _
        show c.calls = 1
        exact hinv.callsOne (Or.inr ⟨t, Or.inr ⟨it, ht⟩⟩)
      · intro hna
        refine absurd (Or.inl ?_) hna
        show some (setItem ttl it now) ≠ none
        simp
  | doPublish t r ht =>
      have hpub := hinv.pubVal t r ht
      refine ⟨?_, ?_, hinv.entryVal, ?_, ?_, ?_, ?_, ?_⟩
      · intro u hm
        replace hm : MidFlight (if u = t then PC.done r
          else if c.pcs u = PC.waiting then PC.done r else c.pcs u) := hm
        show (none : Option (Fin K)) = some u
        by_cases hut : u = t
        · rw [if_pos hut] at hm
          exact absurd hm (by simp [MidFlight])
        · rw [if_neg hut] at hm
          by_cases hw : c.pcs u = PC.waiting
          · rw [if_pos hw] at hm
            exact absurd hm (by simp [MidFlight])
          · rw [if_neg hw] at hm
            have h1 := hinv.leaderOnly u hm
            have h2 := hinv.leaderOnly t (by rw [ht]; trivial)
            rw [h1] at h2
            injection h2 with h3
            exact absurd h3 hut
      · intro u hw'
        replace hw' : (if u = t then PC.done r
          else if c.pcs u = PC.waiting then PC.done r else c.pcs u) = PC.waiting := hw'
        by_cases hut : u = t
        · rw [if_pos hut] at hw'
          exact PC.noConfusion hw'
        · rw [if_neg hut] at hw'
          by_cases hw : c.pcs u = PC.waiting
          · rw [if_pos hw] at hw'
            exact PC.noConfusion hw'
          · rw [if_neg hw] at hw'
            exact absurd hw' hw
      · intro u it' hu
        replace hu : (if u = t then PC.done r
          else if c.pcs u = PC.waiting then PC.done r else c.pcs u) = PC.setStore it' := hu
        by_cases hut : u = t
        · rw [if_pos hut] at hu
          exact PC.noConfusion hu
        · rw [if_neg hut] at hu
          by_cases hw : c.pcs u = PC.waiting
          · rw [if_pos hw] at hu
            exact PC.noConfusion hu
          · rw [if_neg hw] at hu
            exact hinv.setVal u it' hu
      · intro u r' hu
        replace hu : (if u = t then PC.done r
          else if c.pcs u = PC.waiting then PC.done r else c.pcs u) = PC.publish r' := hu
        show r' = Except.ok (setItem ttl it0 now) ∧ c.entry = some (setItem ttl it0 now)
        by_cases hut : u = t
        · rw [if_pos hut] at hu
          exact PC.noConfusion hu
        · rw [if_neg hut] at hu
          by_cases hw : c.pcs u = PC.waiting
          · rw [if_pos hw] at hu
            exact PC.noConfusion hu
          · rw [if_neg hw] at hu
            exact hinv.pubVal u r' hu
      · intro u r' hu
        replace hu : (if u = t then PC.done r
          else if c.pcs u = PC.waiting then PC.done r else c.pcs u) = PC.done r' := hu
        show r' = Except.ok (setItem ttl it0 now) ∧ c.entry = some (setItem ttl it0 now)
        by_cases hut : u = t
        · rw [if_pos hut] at hu
          injection hu with h
          rw [← h]
          exact hpub
        · rw [if_neg hut] at hu
          by_cases hw : c.pcs u = PC.waiting
          · rw [if_pos hw] at hu
            injection hu with h
            rw [← h]
            exact hpub
          · rw [if_neg hw] at hu
            exact hinv.doneVal u r' hu
      · intro _
        show c.calls = 1
        exact hinv.callsOne (Or.inl (by rw [hpub.2]; simp))
      · intro hna
        exact absurd (Or.inl (show c.entry ≠ none by rw [hpub.2]; simp)) hna

/-- The invariant holds in every reachable configuration. -/
theorem sfInv_reachable {K ttl now : Nat} {it0 : Item}
    (hfresh : (setItem ttl it0 now).Expired now = false)
    {c : Config K} (hc : SfReachable ttl now (Except.ok it0) c) :
    SfInv ttl now it0 c := by
  induction hc with
  | refl => exact sfInv_init ttl now it0 K
  | tail _ hstep ih => exact sfInv_step hfresh ih hstep

/-- C1: in the interleaving model of K concurrent `coalescedCache.Get`
calls for the same cold key against a Source that succeeds (and whose
stored, stamped item is fresh at the shared instant), every reachable
configuration has at most one Source invocation active, and in every
configuration in which all K calls have completed, the Source was
invoked exactly once and all K calls hold the identical
`(Entry, error)` pair: the stamped Source item with nil error. -/
theorem coalescing_single_flight (K ttl now : Nat) (it0 : Item)
    (hfresh : (setItem ttl it0 now).Expired now = false)
    (c : Config K) (hc : SfReachable ttl now (Except.ok it0) c) :
    (∀ t u : Fin K, c.pcs t = .querying → c.pcs u = .querying → t = u) ∧
    ((∀ t : Fin K, ∃ r, c.pcs t = .done r) → 0 < K →
      c.calls = 1 ∧
        ∀ t : Fin K, c.pcs t = .done (.ok (setItem ttl it0 now))) := by
  have hinv := sfInv_reachable hfresh hc
  constructor
  · intro t u hqt hqu
    have h1 := hinv.leaderOnly t (by rw [hqt]; trivial)
    have h2 := hinv.leaderOnly u (by rw [hqu]; trivial)
    rw [h1] at h2
    exact Option.some.inj h2
  · intro hdone hK
    obtain ⟨r0, hr0⟩ := hdone ⟨0, hK⟩
    constructor
    · exact hinv.callsOne (Or.inl (by rw [(hinv.doneVal ⟨0, hK⟩ r0 hr0).2]; simp))
    · intro t
      obtain ⟨r, hr⟩ := hdone t
      rw [hr, (hinv.doneVal t r hr).1]

/-- A complete interleaving for a single caller on the cold key: it
registers as leader, misses the store, queries the Source, stores the
stamped item and publishes the result to itself. -/
theorem sf_can_complete :
    ∃ c : Config 1,
      SfReachable 1 0 (Except.ok ⟨GoValue.vStr "hey oh", 0⟩) c ∧
      ∀ t : Fin 1, c.pcs t = PC.done (.ok (setItem 1 ⟨GoValue.vStr "hey oh", 0⟩ 0)) := by
  have r1 := Relation.ReflTransGen.tail Relation.ReflTransGen.refl
    (@SfStep.lead 1 0 (Except.ok ⟨GoValue.vStr "hey oh", 0⟩) 1 (initConfig 1) 0 rfl rfl)
  have r2 := r1.tail
    (@SfStep.beginQueryMiss 1 0 (Except.ok ⟨GoValue.vStr "hey oh", 0⟩) 1 _ 0 (by simp) rfl)
  have r3 := r2.tail
    (@SfStep.endQueryOk 1 0 (Except.ok ⟨GoValue.vStr "hey oh", 0⟩) 1 _ 0
      ⟨GoValue.vStr "hey oh", 0⟩ (by simp) rfl)
  have r4 := r3.tail
    (@SfStep.doSet 1 0 (Except.ok ⟨GoValue.vStr "hey oh", 0⟩) 1 _ 0
      ⟨GoValue.vStr "hey oh", 0⟩ (by simp))
  have r5 := r4.tail
    (@SfStep.doPublish 1 0 (Except.ok ⟨GoValue.vStr "hey oh", 0⟩) 1 _ 0
      (Except.ok (setItem 1 ⟨GoValue.vStr "hey oh", 0⟩ 0)) (by simp))
  refine ⟨_, r5, ?_⟩
  intro t
  fin_cases t
  simp [initConfig, Function.update]

theorem coalescing_single_flight_witness :
    ∃ c : Config 1,
      SfReachable 1 0 (Except.ok ⟨GoValue.vStr "hey oh", 0⟩) c ∧
      c.calls = 1 ∧
      ∀ t : Fin 1, c.pcs t = PC.done (.ok (setItem 1 ⟨GoValue.vStr "hey oh", 0⟩ 0)) := by
  obtain ⟨c, hreach, hdone⟩ := sf_can_complete
  have h := (coalescing_single_flight 1 1 0 ⟨GoValue.vStr "hey oh", 0⟩ (by decide)
      c hreach).2 (fun t => ⟨_, hdone t⟩) (by decide)
  exact ⟨c, hreach, h.1, h.2⟩

end GoCache
